import Mathlib

/-!
Verification of the quad-rag-core incremental indexing engine.

Shallow embedding of the chunking, classification, registry and watcher
logic of `src/quad_rag_core` (`file_processor.py`, `path_manager.py`,
`path_watcher.py`, `config.py`, `utils.py`).  Pure Python functions become
Lean functions on `String` / `List Char`; the vector-store collection
becomes an explicit association list of points; external collaborators
(mime table, text extraction, embedding model, Python's process-local
string hash) become explicit function parameters.
-/

namespace QuadRag

/-- Python whitespace characters recognised by `str.split()` / `str.strip()`
(space, tab, newline, carriage return, vertical tab, form feed). -/
def isPySpace (c : Char) : Bool :=
  c = ' ' || c = '\t' || c = '\n' || c = '\r' || c = '\x0b' || c = '\x0c'

/-- Helper for `pySplit`: walks the character list keeping the current word
accumulated in reverse in `acc`. -/
def splitWsAux : List Char → List Char → List (List Char)
  | [], acc => if acc = [] then [] else [acc.reverse]
  | c :: rest, acc =>
    if isPySpace c then
      if acc = [] then splitWsAux rest []
      else acc.reverse :: splitWsAux rest []
    else splitWsAux rest (c :: acc)

/-- Python `text.split()` with no separator argument: split on runs of
whitespace and drop empty pieces. -/
def pySplit (s : String) : List String :=
  (splitWsAux s.toList []).map (fun w => String.mk w)

/-- Removes the longest suffix of whitespace characters
(right half of Python `str.strip()`). -/
def dropTrailingWs : List Char → List Char
  | [] => []
  | c :: rest =>
    match dropTrailingWs rest, isPySpace c with
    | [], true => []
    | r, _ => c :: r

/-- Python `str.strip()` on a character list. -/
def pyStripChars (l : List Char) : List Char :=
  dropTrailingWs (l.dropWhile isPySpace)

/-- Python `s.strip()` with no argument. -/
def pyStrip (s : String) : String := String.mk (pyStripChars s.toList)

/-- Characters of `" ".join(words)`: words separated by single spaces. -/
def joinChars : List (List Char) → List Char
  | [] => []
  | [w] => w
  | w :: rest => w ++ ' ' :: joinChars rest

/-- Python `" ".join(words)`. -/
def joinWords (ws : List String) : String :=
  String.mk (joinChars (ws.map String.toList))

/-- The step of the sliding window in `chunk_text`:
`max(1, int(chunk_size * (1 - overlap)))`.  `int()` truncates toward zero;
for any value below 1 both truncation and floor are clamped to 1 by the
outer `max`, so `Int.toNat ∘ floor` is a faithful model. -/
def pyStep (chunk_size : Nat) (overlap : ℚ) : Nat :=
  max 1 (Int.toNat ⌊(chunk_size : ℚ) * (1 - overlap)⌋)

/-- The `while i < len(words)` loop of `chunk_text`
(`file_processor.py`, lines 28-44): emits the window starting at word
index `i` unless `only_indices` is given and excludes the running
`chunk_id`, then advances `i` by `step`.  The structural `fuel` argument
bounds the number of iterations; since the loop is only ever entered with
`step ≥ 1` (guaranteed by `pyStep`), `fuel = words.length` always suffices
and the fuel-exhausted branch is unreachable from `chunk_text`. -/
def chunkLoop (words : List String) (chunk_size step : Nat)
    (only_indices : Option (List Nat)) : Nat → Nat → Nat → List String
  | 0, _, _ => []
  | fuel + 1, i, chunk_id =>
    if i < words.length then
      match only_indices with
      | some idxs =>
        if chunk_id ∈ idxs then
          joinWords ((words.drop i).take chunk_size) ::
            chunkLoop words chunk_size step only_indices fuel (i + step) (chunk_id + 1)
        else chunkLoop words chunk_size step only_indices fuel (i + step) (chunk_id + 1)
      | none =>
        joinWords ((words.drop i).take chunk_size) ::
          chunkLoop words chunk_size step only_indices fuel (i + step) (chunk_id + 1)
    else []

/-- Function `chunk_text` from `file_processor.py`: whitespace-split the text, return
`[]` for an empty word list, otherwise slide a `chunk_size`-word window by
`pyStep chunk_size overlap` words, joining each window with single
spaces. -/
def chunk_text (text : String) (chunk_size : Nat) (overlap : ℚ)
    (only_indices : Option (List Nat)) : List String :=
  let words := pySplit text
  if words = [] then []
  else chunkLoop words chunk_size (pyStep chunk_size overlap) only_indices
    words.length 0 0

/-! Unfolding lemmas for `chunkLoop` with `only_indices = none`. -/

theorem chunkLoop_cons (words : List String) (cs step fuel i cid : Nat)
    (h : i < words.length) :
    chunkLoop words cs step none (fuel + 1) i cid =
      joinWords ((words.drop i).take cs) ::
        chunkLoop words cs step none fuel (i + step) (cid + 1) := by
  simp [chunkLoop, h]

theorem chunkLoop_stop (words : List String) (cs step fuel i cid : Nat)
    (h : ¬ i < words.length) :
    chunkLoop words cs step none fuel i cid = [] := by
  cases fuel with
  | zero => rfl
  | succ fuel => simp [chunkLoop, h]

/-- With enough fuel the loop starting at index `i` produces
`⌈(n - i) / step⌉` chunks. -/
theorem chunkLoop_length (words : List String) (cs step : Nat) (hs : 0 < step) :
    ∀ fuel i cid, words.length - i ≤ fuel →
      (chunkLoop words cs step none fuel i cid).length
        = (words.length - i + step - 1) / step := by
  intro fuel
  induction fuel with
  | zero =>
    intro i cid hle
    have h : ¬ i < words.length := by omega
    rw [chunkLoop_stop words cs step 0 i cid h]
    have hz : words.length - i = 0 := by omega
    rw [hz, Nat.zero_add]
    exact (Nat.div_eq_of_lt (by omega)).symm
  | succ fuel ih =>
    intro i cid hle
    by_cases h : i < words.length
    · rw [chunkLoop_cons words cs step fuel i cid h]
      have hrec := ih (i + step) (cid + 1) (by omega)
      simp only [List.length_cons, hrec]
      by_cases hend : words.length ≤ i + step
      · have h1 : words.length - (i + step) = 0 := by omega
        rw [h1]
        have h2 : (0 + step - 1) / step = 0 := Nat.div_eq_of_lt (by omega)
        rw [h2]
        have h3 : (words.length - i + step - 1) / step = 1 := by
          apply Nat.div_eq_of_lt_le
          · omega
          · omega
        omega
      · have h1 : words.length - i + step - 1
            = (words.length - (i + step) + step - 1) + step := by omega
        rw [h1, Nat.add_div_right _ hs]
    · rw [chunkLoop_stop words cs step (fuel + 1) i cid h]
      have hz : words.length - i = 0 := by omega
      rw [hz, Nat.zero_add]
      exact (Nat.div_eq_of_lt (by omega)).symm

/-- The `k`-th chunk produced by the loop starting at `i` is the window of
`cs` words starting at word index `i + k * step`. -/
theorem chunkLoop_getElem? (words : List String) (cs step : Nat) (hs : 0 < step) :
    ∀ fuel i cid k, words.length - i ≤ fuel →
      (chunkLoop words cs step none fuel i cid)[k]? =
        if i + k * step < words.length then
          some (joinWords ((words.drop (i + k * step)).take cs))
        else none := by
  intro fuel
  induction fuel with
  | zero =>
    intro i cid k hle
    have h : ¬ i < words.length := by omega
    rw [chunkLoop_stop words cs step 0 i cid h]
    have : ¬ i + k * step < words.length := by omega
    simp [this]
  | succ fuel ih =>
    intro i cid k hle
    by_cases h : i < words.length
    · rw [chunkLoop_cons words cs step fuel i cid h]
      cases k with
      | zero => simp [h]
      | succ k =>
        rw [List.getElem?_cons_succ]
        rw [ih (i + step) (cid + 1) k (by omega)]
        have harith : i + step + k * step = i + (k + 1) * step := by ring
        rw [harith]
    · rw [chunkLoop_stop words cs step (fuel + 1) i cid h]
      have : ¬ i + k * step < words.length := by
        have : words.length ≤ i := by omega
        omega
      simp [this]

/-- Concatenating the first `step` words of every non-final window followed
by the whole final window rebuilds the word suffix `words.drop i`. -/
theorem chunkLoop_reconstruct (words : List String) (cs step : Nat)
    (hs : 0 < step) (hsc : step ≤ cs) :
    ∀ i, i < words.length →
      (((List.range ((words.length - i + step - 1) / step - 1)).map
          (fun k => (words.drop (i + k * step)).take step)).flatten
        ++ (words.drop (i + ((words.length - i + step - 1) / step - 1) * step)).take cs)
      = words.drop i := by
  have main : ∀ fuel i, words.length - i ≤ fuel → i < words.length →
      (((List.range ((words.length - i + step - 1) / step - 1)).map
          (fun k => (words.drop (i + k * step)).take step)).flatten
        ++ (words.drop (i + ((words.length - i + step - 1) / step - 1) * step)).take cs)
      = words.drop i := by
    intro fuel
    induction fuel with
    | zero =>
      intro i hle h
      omega
    | succ fuel ih =>
      intro i hle h
      by_cases hend : words.length ≤ i + step
      · have hL : (words.length - i + step - 1) / step = 1 := by
          apply Nat.div_eq_of_lt_le
          · omega
          · omega
        rw [hL]
        simp only [Nat.sub_self, List.range_zero, List.map_nil, List.flatten_nil,
          List.nil_append, Nat.zero_mul, Nat.add_zero]
        apply List.take_of_length_le
        rw [List.length_drop]
        omega
      · have hstep2 : i + step < words.length := by omega
        have hL : (words.length - i + step - 1) / step
            = (words.length - (i + step) + step - 1) / step + 1 := by
          have h1 : words.length - i + step - 1
              = (words.length - (i + step) + step - 1) + step := by omega
          rw [h1, Nat.add_div_right _ hs]
        have hL2 : 1 ≤ (words.length - (i + step) + step - 1) / step := by
          apply Nat.le_div_iff_mul_le hs |>.mpr
          omega
        rw [hL]
        have hshape : (words.length - (i + step) + step - 1) / step + 1 - 1
            = ((words.length - (i + step) + step - 1) / step - 1) + 1 := by omega
        rw [hshape, List.range_succ_eq_map]
        simp only [List.map_cons, List.map_map, List.flatten_cons, Nat.zero_mul,
          Nat.add_zero, Function.comp, Nat.succ_eq_add_one]
        have hf : (List.range ((words.length - (i + step) + step - 1) / step - 1)).map
              ((fun k => (words.drop (i + k * step)).take step) ∘ Nat.succ)
            = (List.range ((words.length - (i + step) + step - 1) / step - 1)).map
              (fun k => (words.drop (i + step + k * step)).take step) := by
          apply List.map_congr_left
          intro k hk
          simp only [Function.comp_apply, Nat.succ_eq_add_one]
          have harith : i + (k + 1) * step = i + step + k * step := by ring
          rw [harith]
        rw [hf]
        have hfin : i + (((words.length - (i + step) + step - 1) / step - 1) + 1) * step
            = i + step + ((words.length - (i + step) + step - 1) / step - 1) * step := by
          ring
        rw [hfin, List.append_assoc]
        rw [ih (i + step) (by omega) hstep2]
        have hdd : words.drop (i + step) = (words.drop i).drop step := by
          rw [List.drop_drop]
        rw [hdd, List.take_append_drop]
  intro i h
  exact main (words.length - i) i (Nat.le_refl _) h

theorem pyStep_pos (cs : Nat) (ov : ℚ) : 0 < pyStep cs ov := by
  unfold pyStep
  omega

/-- For a nonnegative overlap the step never exceeds the window size. -/
theorem pyStep_le_chunk_size (cs : Nat) (ov : ℚ) (h1 : 1 ≤ cs) (h0 : 0 ≤ ov) :
    pyStep cs ov ≤ cs := by
  unfold pyStep
  have hx : Int.toNat ⌊(cs : ℚ) * (1 - ov)⌋ ≤ cs := by
    have hle : ((cs : ℚ) * (1 - ov)) ≤ (cs : ℚ) := by
      have hb : (1 : ℚ) - ov ≤ 1 := by linarith
      calc (cs : ℚ) * (1 - ov) ≤ (cs : ℚ) * 1 :=
            mul_le_mul_of_nonneg_left hb (by positivity)
        _ = (cs : ℚ) := mul_one _
    have hf : ⌊(cs : ℚ) * (1 - ov)⌋ ≤ ⌊(cs : ℚ)⌋ := Int.floor_le_floor hle
    have hfc : ⌊(cs : ℚ)⌋ = (cs : ℤ) := Int.floor_natCast cs
    rw [hfc] at hf
    exact Int.toNat_le.mpr hf
  omega

theorem splitWsAux_all_ws :
    ∀ l : List Char, (∀ c ∈ l, isPySpace c = true) → splitWsAux l [] = [] := by
  intro l
  induction l with
  | nil => intro _; simp [splitWsAux]
  | cons c rest ih =>
    intro h
    have hc : isPySpace c = true := h c (List.mem_cons_self c rest)
    simp only [splitWsAux, hc, if_true, if_pos rfl]
    exact ih (fun x hx => h x (List.mem_cons_of_mem c hx))

/-- An all-whitespace (or empty) text splits to no words. -/
theorem pySplit_all_ws (s : String) (h : ∀ c ∈ s.toList, isPySpace c = true) :
    pySplit s = [] := by
  unfold pySplit
  rw [splitWsAux_all_ws s.toList h]
  rfl

/-- Claim C1: for text with `n > 0` whitespace-split words, `chunk_size ≥ 1`
and overlap fraction `overlap ≥ 0` (which covers every fraction in `[0,1]`),
`chunk_text` with no `only_indices` returns exactly `⌈n / step⌉` chunks where
`step = max(1, ⌊chunk_size * (1 - overlap)⌋)`; the `k`-th chunk is the window
of words at indices `[k*step, k*step + chunk_size)` joined by single spaces;
concatenating each non-final chunk's first `step` words followed by the final
chunk rebuilds the word sequence; and for empty or all-whitespace text the
result is the empty list. -/
theorem chunk_text_spec (text : String) (chunk_size : Nat) (overlap : ℚ)
    (hcs : 1 ≤ chunk_size) (hov : 0 ≤ overlap) :
    (pySplit text = [] → chunk_text text chunk_size overlap none = [])
    ∧ ((∀ c ∈ text.toList, isPySpace c = true) →
        chunk_text text chunk_size overlap none = [])
    ∧ (pySplit text ≠ [] →
        (chunk_text text chunk_size overlap none).length
          = ((pySplit text).length + pyStep chunk_size overlap - 1)
              / pyStep chunk_size overlap
        ∧ (∀ k, (chunk_text text chunk_size overlap none)[k]? =
            if k * pyStep chunk_size overlap < (pySplit text).length then
              some (joinWords
                (((pySplit text).drop (k * pyStep chunk_size overlap)).take chunk_size))
            else none)
        ∧ ((((List.range ((chunk_text text chunk_size overlap none).length - 1)).map
              (fun k => ((pySplit text).drop (k * pyStep chunk_size overlap)).take
                (pyStep chunk_size overlap))).flatten
            ++ ((pySplit text).drop
                (((chunk_text text chunk_size overlap none).length - 1)
                  * pyStep chunk_size overlap)).take chunk_size)
          = pySplit text)) := by
  have hs : 0 < pyStep chunk_size overlap := pyStep_pos chunk_size overlap
  have hsc : pyStep chunk_size overlap ≤ chunk_size :=
    pyStep_le_chunk_size chunk_size overlap hcs hov
  refine ⟨?_, ?_, ?_⟩
  · intro h
    unfold chunk_text
    simp [h]
  · intro h
    unfold chunk_text
    simp [pySplit_all_ws text h]
  · intro hne
    have hn : 0 < (pySplit text).length := List.length_pos.mpr hne
    have hct : chunk_text text chunk_size overlap none
        = chunkLoop (pySplit text) chunk_size (pyStep chunk_size overlap) none
            (pySplit text).length 0 0 := by
      unfold chunk_text
      simp [hne]
    have hlen := chunkLoop_length (pySplit text) chunk_size
      (pyStep chunk_size overlap) hs (pySplit text).length 0 0 (by omega)
    rw [Nat.sub_zero] at hlen
    refine ⟨by rw [hct]; exact hlen, ?_, ?_⟩
    · intro k
      rw [hct, chunkLoop_getElem? (pySplit text) chunk_size
        (pyStep chunk_size overlap) hs (pySplit text).length 0 0 k (by omega),
        Nat.zero_add]
    · have hrec := chunkLoop_reconstruct (pySplit text) chunk_size
        (pyStep chunk_size overlap) hs hsc 0 hn
      simp only [Nat.zero_add, Nat.sub_zero] at hrec
      rw [hct, hlen]
      exact hrec

/-- Witness for `chunk_text_spec` at a concrete input. -/
theorem chunk_text_spec_witness :
    (1 : Nat) ≤ 2 ∧ (0 : ℚ) ≤ 1/2
    ∧ ((pySplit "a b c" = [] → chunk_text "a b c" 2 (1/2) none = [])
      ∧ ((∀ c ∈ ("a b c" : String).toList, isPySpace c = true) →
          chunk_text "a b c" 2 (1/2) none = [])
      ∧ (pySplit "a b c" ≠ [] →
          (chunk_text "a b c" 2 (1/2) none).length
            = ((pySplit "a b c").length + pyStep 2 (1/2) - 1) / pyStep 2 (1/2)
          ∧ (∀ k, (chunk_text "a b c" 2 (1/2) none)[k]? =
              if k * pyStep 2 (1/2) < (pySplit "a b c").length then
                some (joinWords
                  (((pySplit "a b c").drop (k * pyStep 2 (1/2))).take 2))
              else none)
          ∧ ((((List.range ((chunk_text "a b c" 2 (1/2) none).length - 1)).map
                (fun k => ((pySplit "a b c").drop (k * pyStep 2 (1/2))).take
                  (pyStep 2 (1/2)))).flatten
              ++ ((pySplit "a b c").drop
                  (((chunk_text "a b c" 2 (1/2) none).length - 1)
                    * pyStep 2 (1/2))).take 2)
            = pySplit "a b c"))) :=
  ⟨by norm_num, by norm_num,
    chunk_text_spec "a b c" 2 (1/2) (by norm_num) (by norm_num)⟩

/-! Content classifier: `config.py`, `utils.py` and
`path_watcher.py`'s `_should_process`. -/

/-- Constant `TEXT_FILE_EXTENSIONS` from `config.py` (a Python set; modelled as a
list, only membership is ever used). -/
def TEXT_FILE_EXTENSIONS : List String :=
  [".c", ".cpp", ".cs", ".csproj", ".go", ".h", ".hpp", ".java", ".js", ".php",
   ".py", ".rb", ".rs", ".sln", ".ts",
   ".bat", ".cfg", ".ini", ".sh", ".toml", ".yaml", ".yml",
   ".txt", ".css", ".html", ".ipynb", ".json", ".log", ".md", ".xml"]

/-- Python list-prefix test on characters (`str.startswith` at list level). -/
def listIsPrefix : List Char → List Char → Bool
  | [], _ => true
  | _ :: _, [] => false
  | a :: as, b :: bs => a == b && listIsPrefix as bs

/-- Python `s.startswith(pre)`. -/
def strStartsWith (s pre : String) : Bool := listIsPrefix pre.toList s.toList

/-- Python `os.path.splitext(p)[1]`: the extension of the basename,
beginning with the last dot, empty when the basename has no dot after its
leading dots. -/
def pyExt (p : String) : String :=
  let b := (p.toList.reverse.takeWhile (fun c => c ≠ '/')).reverse
  let r := b.dropWhile (fun c => c = '.')
  if r.contains '.' then
    String.mk ('.' :: (r.reverse.takeWhile (fun c => c ≠ '.')).reverse)
  else ""

/-- Python `str.lower()` (ASCII is all that reaches it here). -/
def pyLower (s : String) : String := String.mk (s.toList.map Char.toLower)

/-- Function `get_file_mime_type` from `utils.py`.  `mimetypes.guess_type` consults an
environment mime table, modelled as the function parameter `mimeGuess`;
a missing guess falls back to `application/octet-stream`. -/
def get_file_mime_type (mimeGuess : String → Option String) (p : String) : String :=
  (mimeGuess p).getD "application/octet-stream"

/-- Function `is_text_file` from `utils.py`: textual mime type, or extension in the
fixed allow-list. -/
def is_text_file (mimeGuess : String → Option String) (p : String) : Bool :=
  strStartsWith (get_file_mime_type mimeGuess p) "text/"
    || TEXT_FILE_EXTENSIONS.contains (pyLower (pyExt p))

/-- Function `_should_process` from `path_watcher.py`: a path is eligible when the
`"text"` category is accepted and the file looks textual, or the `"pdf"`
category is accepted and the mime type is exactly `application/pdf`. -/
def should_process (mimeGuess : String → Option String)
    (content_types : List String) (p : String) : Bool :=
  if content_types.contains "text" && is_text_file mimeGuess p then true
  else if content_types.contains "pdf"
      && (get_file_mime_type mimeGuess p == "application/pdf") then true
  else false

/-- The default `content_types` of `watch_folder`
(`path_manager.py` line 124): `list(TEXT_FILE_EXTENSIONS)`. -/
def watchFolderDefaultContentTypes : List String := TEXT_FILE_EXTENSIONS

/-- Claim C10: the default `content_types` of `watch_folder` is the list of
textual file extensions (strings such as `.py`, `.txt`), which contains
neither the category string `"text"` nor `"pdf"`; under that default
`_should_process` classifies no path as eligible, so the initial scan
collects no files and live events index nothing. -/
theorem default_content_types_index_nothing :
    watchFolderDefaultContentTypes = TEXT_FILE_EXTENSIONS
    ∧ ".py" ∈ watchFolderDefaultContentTypes
    ∧ ".txt" ∈ watchFolderDefaultContentTypes
    ∧ ("text" ∈ watchFolderDefaultContentTypes → False)
    ∧ ("pdf" ∈ watchFolderDefaultContentTypes → False)
    ∧ (∀ (mimeGuess : String → Option String) (p : String),
        should_process mimeGuess watchFolderDefaultContentTypes p = false)
    ∧ (∀ (mimeGuess : String → Option String) (paths : List String),
        paths.filter (fun p =>
          should_process mimeGuess watchFolderDefaultContentTypes p) = []) := by
  have htext : watchFolderDefaultContentTypes.contains "text" = false := by decide
  have hpdf : watchFolderDefaultContentTypes.contains "pdf" = false := by decide
  have hsp : ∀ (mimeGuess : String → Option String) (p : String),
      should_process mimeGuess watchFolderDefaultContentTypes p = false := by
    intro mimeGuess p
    unfold should_process
    rw [htext, hpdf]
    simp
  refine ⟨rfl, by decide, by decide, by decide, by decide, hsp, ?_⟩
  intro mimeGuess paths
  rw [List.filter_eq_nil_iff]
  intro p _
  rw [hsp mimeGuess p]
  simp

/-! Collection-name sanitisation and the registry's conflict check
(`path_manager.py`). -/

/-- Characters allowed by the regex `[^a-zA-Z0-9_.-]` in
`_sanitize_collection_name`. -/
def isAllowedChar (c : Char) : Bool :=
  ('a' ≤ c && c ≤ 'z') || ('A' ≤ c && c ≤ 'Z') || ('0' ≤ c && c ≤ '9')
    || c = '_' || c = '.' || c = '-'

/-- Model of `re.sub(r'[^a-zA-Z0-9_.-]', '_', ·)` acting on one character. -/
def replChar (c : Char) : Char := if isAllowedChar c then c else '_'

/-- Model of `re.sub(r'_+', '_', ·)`: collapse each run of underscores to one. -/
def collapseUnderscores : List Char → List Char
  | [] => []
  | [c] => [c]
  | c :: d :: rest =>
    if c = '_' && d = '_' then collapseUnderscores (d :: rest)
    else c :: collapseUnderscores (d :: rest)

/-- The separator characters stripped from the ends by `.strip('_.-')`. -/
def isSepChar (c : Char) : Bool := c = '_' || c = '.' || c = '-'

/-- Removes the longest suffix of separator characters. -/
def dropTrailingSeps : List Char → List Char
  | [] => []
  | c :: rest =>
    match dropTrailingSeps rest, isSepChar c with
    | [], true => []
    | r, _ => c :: r

/-- Python `.strip('_.-')`. -/
def stripSeps (l : List Char) : List Char :=
  dropTrailingSeps (l.dropWhile isSepChar)

/-- The sanitised character list before the final `[:max_length]`
truncation: replace invalid characters, collapse underscore runs, strip
separators from both ends. -/
def sanitizeCore (base : String) : List Char :=
  stripSeps (collapseUnderscores (base.toList.map replChar))

/-- Function `_sanitize_collection_name` from `path_manager.py` (with the default
`max_length = 64`): raises on empty/whitespace-only input, raises when the
sanitised form is empty, otherwise returns the first 64 characters of the
sanitised form.  The `isinstance` type-check of the source is vacuous in a
typed embedding. -/
def sanitize_collection_name (base : String) : Except String String :=
  if pyStrip base = "" then Except.error "Collection name cannot be empty"
  else if sanitizeCore base = [] then
    Except.error "Sanitized collection name is empty"
  else Except.ok (String.mk ((sanitizeCore base).take 64))

/-- Function `_check_conflict` from `path_manager.py`: the registered roots whose
path is a strict ancestor or strict descendant of the (already normalised)
new path, on a path-separator boundary (`os.sep = "/"`). -/
def check_conflict (watchers : List String) (new_path : String) : List String :=
  watchers.filter (fun w =>
    strStartsWith new_path (w ++ "/") || strStartsWith w (new_path ++ "/"))

deriving instance DecidableEq for Except

/-- The errors `watch_folder` can raise. -/
inductive RegError where
  | emptyPath : RegError
  | conflict (conflicts : List String) : RegError
  | badName (msg : String) : RegError
deriving DecidableEq

/-- The readable-name transformation of `watch_folder`:
`folder_path.replace(":", "").replace("\\", "_").replace("/", "_")`. -/
def pathForName (p : String) : String :=
  String.mk ((p.toList.filter (fun c => c ≠ ':')).map
    (fun c => if c = '\\' || c = '/' then '_' else c))

/-- Function `watch_folder` from `path_manager.py`, on an already-normalised path
(`os.path.abspath`/`normpath` depend on the process working directory and
are applied before this logic).  The registry state is the list of
registered root paths (the keys of `self.watchers`, in insertion order);
a re-registered path overwrites its dict entry, leaving the key set
unchanged.  Collection creation, the metadata upsert and watcher startup
are effects on external systems and do not alter the key set. -/
def watch_folder (pre : String) (watchers : List String) (folder_path : String) :
    Except RegError (List String) :=
  if folder_path = "" then Except.error RegError.emptyPath
  else
    let conflicts := check_conflict watchers folder_path
    if conflicts ≠ [] then Except.error (RegError.conflict conflicts)
    else
      match sanitize_collection_name (pre ++ "_" ++ pathForName folder_path) with
      | Except.error e => Except.error (RegError.badName e)
      | Except.ok _ =>
        Except.ok (if watchers.contains folder_path then watchers
          else watchers ++ [folder_path])

/-! Lemmas about the conflict check. -/

theorem listIsPrefix_le (a b : List Char) (h : listIsPrefix a b = true) :
    a.length ≤ b.length := by
  induction a generalizing b with
  | nil => simp
  | cons x xs ih =>
    cases b with
    | nil => simp [listIsPrefix] at h
    | cons y ys =>
      simp only [listIsPrefix, Bool.and_eq_true] at h
      have := ih ys h.2
      simp only [List.length_cons]
      omega

theorem strToList_append (s t : String) : (s ++ t).toList = s.toList ++ t.toList := by
  simp [String.toList, String.data_append]

/-- A path never "starts with itself plus a separator": the conflict
predicate is irreflexive, so an identical registered root is not detected
as a conflict. -/
theorem strStartsWith_self_sep (w : String) : strStartsWith w (w ++ "/") = false := by
  by_contra h
  have h1 : listIsPrefix (w ++ "/").toList w.toList = true := by
    unfold strStartsWith at h
    revert h
    cases listIsPrefix (w ++ "/").toList w.toList <;> simp
  have h2 := listIsPrefix_le _ _ h1
  rw [strToList_append] at h2
  simp at h2

/-- Claim C2 (amended): `watch_folder` on a nonempty (normalised) path
raises a conflict error exactly when some registered root is a strict
ancestor or strict descendant of the new path (prefix match on a `/`
boundary).  An identical registered path does not trigger the conflict
error — the conflict predicate is irreflexive — so a second registration
of the same path is accepted and overwrites the previous entry. -/
theorem watch_folder_conflict_spec (pre : String) (watchers : List String)
    (p : String) (hp : p ≠ "") :
    ((∃ cs, watch_folder pre watchers p = Except.error (RegError.conflict cs)) ↔
      ∃ w ∈ watchers,
        (strStartsWith p (w ++ "/") || strStartsWith w (p ++ "/")) = true)
    ∧ strStartsWith p (p ++ "/") = false := by
  refine ⟨?_, strStartsWith_self_sep p⟩
  unfold watch_folder
  rw [if_neg hp]
  by_cases hc : check_conflict watchers p = []
  · simp only [hc, ne_eq, not_true_eq_false, if_false]
    constructor
    · intro hcontra
      obtain ⟨cs, hcs⟩ := hcontra
      rcases hsan : sanitize_collection_name (pre ++ "_" ++ pathForName p) with e | ok
      · rw [hsan] at hcs
        simp at hcs
      · rw [hsan] at hcs
        simp at hcs
    · intro hcontra
      obtain ⟨w, hw, hpred⟩ := hcontra
      have : w ∈ check_conflict watchers p := by
        unfold check_conflict
        rw [List.mem_filter]
        exact ⟨hw, hpred⟩
      rw [hc] at this
      simp at this
  · simp only [ne_eq, hc, not_false_eq_true, if_true]
    constructor
    · intro _
      obtain ⟨x, hx⟩ := List.exists_mem_of_ne_nil _ hc
      have := List.mem_filter.mp hx
      exact ⟨x, this.1, this.2⟩
    · intro _
      exact ⟨check_conflict watchers p, rfl⟩

/-- Witness for `watch_folder_conflict_spec`: with `/a/b` registered,
adding the descendant `/a/b/c` is reported as a conflict. -/
theorem watch_folder_conflict_spec_witness :
    (((∃ cs, watch_folder "rag" ["/a/b"] "/a/b/c"
          = Except.error (RegError.conflict cs)) ↔
        ∃ w ∈ ["/a/b"],
          (strStartsWith "/a/b/c" (w ++ "/") || strStartsWith w ("/a/b/c" ++ "/")) = true)
      ∧ strStartsWith "/a/b/c" ("/a/b/c" ++ "/") = false)
    ∧ (∃ cs, watch_folder "rag" ["/a/b"] "/a/b/c"
        = Except.error (RegError.conflict cs)) :=
  ⟨watch_folder_conflict_spec "rag" ["/a/b"] "/a/b/c" (by decide),
    ⟨["/a/b"], by decide⟩⟩

/-- Counterexample to claim C2 as stated: registering the same normalised
path a second time does not fail — `watch_folder` returns successfully and
the registry key set is unchanged. -/
theorem watch_folder_same_path_accepted :
    watch_folder "rag" ["/a/b"] "/a/b" = Except.ok ["/a/b"]
    ∧ (∀ cs, watch_folder "rag" ["/a/b"] "/a/b"
        ≠ Except.error (RegError.conflict cs)) := by
  constructor
  · decide
  · intro cs
    have h : watch_folder "rag" ["/a/b"] "/a/b" = Except.ok ["/a/b"] := by decide
    rw [h]
    simp

/-! Lemmas about the sanitiser. -/

theorem replChar_allowed (c : Char) : isAllowedChar (replChar c) = true := by
  unfold replChar
  by_cases h : isAllowedChar c = true
  · simp [h]
  · simp [h]
    decide

theorem mem_collapseUnderscores (l : List Char) (c : Char)
    (h : c ∈ collapseUnderscores l) : c ∈ l := by
  induction l using collapseUnderscores.induct with
  | case1 => simp [collapseUnderscores] at h
  | case2 d => simp [collapseUnderscores] at h; simp [h]
  | case3 x d rest hxd ih =>
    rw [collapseUnderscores, if_pos hxd] at h
    exact List.mem_cons_of_mem x (ih h)
  | case4 x d rest hxd ih =>
    rw [collapseUnderscores, if_neg hxd] at h
    rcases List.mem_cons.mp h with h1 | h2
    · simp [h1]
    · exact List.mem_cons_of_mem x (ih h2)

theorem mem_dropTrailingSeps (l : List Char) (c : Char)
    (h : c ∈ dropTrailingSeps l) : c ∈ l := by
  induction l with
  | nil => simp [dropTrailingSeps] at h
  | cons a rest ih =>
    cases hs : isSepChar a with
    | false =>
      rcases hr : dropTrailingSeps rest with _ | ⟨x, xs⟩
      · rw [dropTrailingSeps, hr, hs] at h
        rcases List.mem_cons.mp h with h1 | h2
        · simp [h1]
        · simp at h2
      · rw [dropTrailingSeps, hr, hs] at h
        rcases List.mem_cons.mp h with h1 | h2
        · simp [h1]
        · exact List.mem_cons_of_mem a (ih (hr.symm ▸ h2))
    | true =>
      rcases hr : dropTrailingSeps rest with _ | ⟨x, xs⟩
      · rw [dropTrailingSeps, hr, hs] at h
        simp at h
      · rw [dropTrailingSeps, hr, hs] at h
        rcases List.mem_cons.mp h with h1 | h2
        · simp [h1]
        · exact List.mem_cons_of_mem a (ih (hr.symm ▸ h2))

theorem head?_dropTrailingSeps (l : List Char) (c : Char)
    (h : (dropTrailingSeps l).head? = some c) : l.head? = some c := by
  cases l with
  | nil => simp [dropTrailingSeps] at h
  | cons a rest =>
    cases hs : isSepChar a with
    | false =>
      rcases hr : dropTrailingSeps rest with _ | ⟨x, xs⟩ <;>
        rw [dropTrailingSeps, hr, hs] at h <;>
        simp only [List.head?_cons, Option.some_inj] at h <;>
        simp [h]
    | true =>
      rcases hr : dropTrailingSeps rest with _ | ⟨x, xs⟩
      · rw [dropTrailingSeps, hr, hs] at h
        simp at h
      · rw [dropTrailingSeps, hr, hs] at h
        simp only [List.head?_cons, Option.some_inj] at h
        simp [h]

theorem getLast?_dropTrailingSeps (l : List Char) (c : Char)
    (h : (dropTrailingSeps l).getLast? = some c) : isSepChar c = false := by
  induction l with
  | nil => simp [dropTrailingSeps] at h
  | cons a rest ih =>
    cases hs : isSepChar a with
    | false =>
      rcases hr : dropTrailingSeps rest with _ | ⟨x, xs⟩
      · rw [dropTrailingSeps, hr, hs] at h
        simp only [List.getLast?_singleton, Option.some_inj] at h
        rw [← h]
        exact hs
      · rw [dropTrailingSeps, hr, hs, List.getLast?_cons_cons] at h
        exact ih (hr.symm ▸ h)
    | true =>
      rcases hr : dropTrailingSeps rest with _ | ⟨x, xs⟩
      · rw [dropTrailingSeps, hr, hs] at h
        simp at h
      · rw [dropTrailingSeps, hr, hs, List.getLast?_cons_cons] at h
        exact ih (hr.symm ▸ h)

theorem head?_dropWhile_not (p : Char → Bool) (l : List Char) (c : Char)
    (h : (l.dropWhile p).head? = some c) : p c = false := by
  induction l with
  | nil => simp [List.dropWhile] at h
  | cons a rest ih =>
    rw [List.dropWhile] at h
    by_cases hp : p a = true
    · rw [hp] at h
      exact ih h
    · have hp' : p a = false := by revert hp; cases p a <;> simp
      rw [hp'] at h
      simp only [List.head?_cons, Option.some_inj] at h
      subst h
      exact hp'

/-- Claim C7 (amended): for every non-empty input, either
`_sanitize_collection_name` raises — exactly when the input strips to
whitespace or the sanitised form is empty — or it returns a non-empty
string of length at most 64 whose characters are all in `[A-Za-z0-9_.-]`,
with no leading separator; the no-trailing-separator guarantee holds
whenever the sanitised form fits in 64 characters (the final truncation,
applied after stripping, can reintroduce a trailing separator). -/
theorem sanitize_collection_name_spec (base : String) (hb : base ≠ "") :
    ((∃ msg, sanitize_collection_name base = Except.error msg) ↔
      (pyStrip base = "" ∨ sanitizeCore base = []))
    ∧ (∀ out, sanitize_collection_name base = Except.ok out →
        out ≠ ""
        ∧ out.length ≤ 64
        ∧ (∀ c ∈ out.toList, isAllowedChar c = true)
        ∧ (∀ c, out.toList.head? = some c → isSepChar c = false)
        ∧ ((sanitizeCore base).length ≤ 64 →
            ∀ c, out.toList.getLast? = some c → isSepChar c = false)) := by
  unfold sanitize_collection_name
  by_cases h1 : pyStrip base = ""
  · rw [if_pos h1]
    constructor
    · constructor
      · intro _; exact Or.inl h1
      · intro _; exact ⟨"Collection name cannot be empty", rfl⟩
    · intro out hout
      simp at hout
  · rw [if_neg h1]
    by_cases h2 : sanitizeCore base = []
    · rw [if_pos h2]
      constructor
      · constructor
        · intro _; exact Or.inr h2
        · intro _; exact ⟨"Sanitized collection name is empty", rfl⟩
      · intro out hout
        simp at hout
    · rw [if_neg h2]
      constructor
      · constructor
        · intro hcontra
          obtain ⟨msg, hmsg⟩ := hcontra
          simp at hmsg
        · intro hcontra
          rcases hcontra with h | h
          · exact absurd h h1
          · exact absurd h h2
      · intro out hout
        have hval : out = String.mk ((sanitizeCore base).take 64) := by
          have := hout
          simp only [Except.ok.injEq] at this
          exact this.symm
        subst hval
        have htl : (String.mk ((sanitizeCore base).take 64)).toList
            = (sanitizeCore base).take 64 := rfl
        refine ⟨?_, ?_, ?_, ?_, ?_⟩
        · intro hcontra
          have hdata : (sanitizeCore base).take 64 = [] := by
            have := congrArg String.toList hcontra
            simpa using this
          rw [List.take_eq_nil_iff] at hdata
          rcases hdata with h | h
          · exact absurd h (by norm_num)
          · exact h2 h
        · show ((sanitizeCore base).take 64).length ≤ 64
          rw [List.length_take]
          exact inf_le_left
        · intro c hc
          rw [htl] at hc
          have hc2 : c ∈ sanitizeCore base := List.mem_of_mem_take hc
          unfold sanitizeCore stripSeps at hc2
          have hc3 := mem_dropTrailingSeps _ _ hc2
          have hc4 : c ∈ collapseUnderscores (base.toList.map replChar) :=
            (List.dropWhile_sublist _).mem hc3
          have hc5 := mem_collapseUnderscores _ _ hc4
          obtain ⟨x, _, hx⟩ := List.mem_map.mp hc5
          rw [← hx]
          exact replChar_allowed x
        · intro c hc
          rw [htl, List.head?_take] at hc
          simp only [OfNat.ofNat_ne_zero, if_false] at hc
          unfold sanitizeCore stripSeps at hc
          have hc2 := head?_dropTrailingSeps _ _ hc
          exact head?_dropWhile_not isSepChar _ c hc2
        · intro hfit c hc
          rw [htl, List.take_of_length_le hfit] at hc
          unfold sanitizeCore stripSeps at hc
          exact getLast?_dropTrailingSeps _ c hc

/-- Witness for `sanitize_collection_name_spec` at the concrete input
`"a/b"` (sanitised to `"a_b"`). -/
theorem sanitize_collection_name_spec_witness :
    ((∃ msg, sanitize_collection_name "a/b" = Except.error msg) ↔
      (pyStrip "a/b" = "" ∨ sanitizeCore "a/b" = []))
    ∧ (∀ out, sanitize_collection_name "a/b" = Except.ok out →
        out ≠ ""
        ∧ out.length ≤ 64
        ∧ (∀ c ∈ out.toList, isAllowedChar c = true)
        ∧ (∀ c, out.toList.head? = some c → isSepChar c = false)
        ∧ ((sanitizeCore "a/b").length ≤ 64 →
            ∀ c, out.toList.getLast? = some c → isSepChar c = false)) :=
  sanitize_collection_name_spec "a/b" (by decide)

/-- Counterexample to claim C7 as stated: the input of 63 `a`s, a dot and
a `b` sanitises to itself (65 characters), and the final truncation to 64
characters leaves a trailing dot — a trailing separator — in the returned
name. -/
theorem sanitize_collection_name_trailing_sep :
    sanitize_collection_name (String.mk (List.replicate 63 'a' ++ ['.', 'b']))
      = Except.ok (String.mk (List.replicate 63 'a' ++ ['.']))
    ∧ (String.mk (List.replicate 63 'a' ++ ['.'])).toList.getLast? = some '.'
    ∧ isSepChar '.' = true := by
  set_option maxRecDepth 40000 in decide

/-! The watcher (`path_watcher.py`): collection state, per-file processing
and event handlers.  The vector-store collection is an association list of
points in scroll order; Python's process-local string `hash`, the embedder
and the text-extraction pipeline (`file_processor.process_file`, which
reads the filesystem) are abstract function parameters. -/

/-- A stored point's payload: either a content chunk (with the fields
written by `_process_file`) or the watcher metadata record (which carries
no `path` field).  Modification times are carried as their `str()` form,
exactly as they are concatenated into the id hash. -/
inductive QPayload where
  | chunk (path : String) (chunk_index : Nat) (total_chunks : Nat)
      (content_preview : String) (mtime : String) : QPayload
  | meta (folder_path : String) (content_types : List String)
      (collectionPre : String) : QPayload
deriving DecidableEq

/-- A collection: points `(id, payload)` in scroll order. -/
abbrev QState := List (Nat × QPayload)

/-- The scroll filter of `_delete_file_from_qdrant`: matches chunk payloads
whose `path` equals the given path; the metadata record never matches. -/
def payloadMatchesPath (p : String) : QPayload → Bool
  | QPayload.chunk path _ _ _ _ => path == p
  | QPayload.meta _ _ _ => false

/-- Model of `client.scroll(..., scroll_filter=path==p, limit=limit)`: the first
`limit` matching points, in collection order. -/
def scrollByPath (col : QState) (p : String) (limit : Nat) : List (Nat × QPayload) :=
  (col.filter (fun e => payloadMatchesPath p e.2)).take limit

/-- Model of `client.delete(points_selector=PointIdsList(ids))`. -/
def deleteByIds (col : QState) (ids : List Nat) : QState :=
  col.filter (fun e => !ids.contains e.1)

/-- Function `_delete_file_from_qdrant` from `path_watcher.py`: scroll (limit 1000,
no pagination) for the points whose `path` matches, then delete that batch
by id. -/
def delete_file_from_qdrant (col : QState) (p : String) : QState :=
  deleteByIds col ((scrollByPath col p 1000).map Prod.fst)

/-- Function `on_deleted` from `path_watcher.py`: non-directory deletions delete the
source path's chunks. -/
def on_deleted (is_directory : Bool) (src_path : String) (col : QState) : QState :=
  if is_directory then col else delete_file_from_qdrant col src_path

/-- The observable operations `_process_file` and the event handlers issue
against the store and the scheduler. -/
inductive WAction where
  | deleteByPath (p : String) : WAction
  | upsert (id : Nat) (payload : QPayload) (vector : List Int) : WAction
  | scheduleReprocess (p : String) : WAction
deriving DecidableEq

/-- Model of `abs(hash(file_path + str(i) + str(mtime)))`: `hashF` stands for
Python's process-local string hash. -/
def point_id (hashF : String → Int) (path : String) (i : Nat) (mtime : String) : Nat :=
  (hashF (path ++ toString i ++ mtime)).natAbs

/-- Constant `CHUNK_CHARACTERS_PREVIEW` from `config.py`. -/
def CHUNK_CHARACTERS_PREVIEW : Nat := 100

/-- Python slicing `s[:n]`. -/
def pyTake (n : Nat) (s : String) : String := String.mk (s.toList.take n)

/-- The `for i, chunk in enumerate(chunks)` loop of `_process_file`:
chunks whose stripped length is below 10 are skipped, every other chunk is
embedded and upserted individually. -/
def chunkUpserts (hashF : String → Int) (embed : String → List Int)
    (path mtime : String) (total : Nat) : List String → Nat → List WAction
  | [], _ => []
  | c :: rest, i =>
    if (pyStrip c).length < 10 then
      chunkUpserts hashF embed path mtime total rest (i + 1)
    else
      WAction.upsert (point_id hashF path i mtime)
          (QPayload.chunk path i total (pyTake CHUNK_CHARACTERS_PREVIEW c) mtime)
          (embed c)
        :: chunkUpserts hashF embed path mtime total rest (i + 1)

/-- Function `_process_file` from `path_watcher.py` as the list of store operations
it performs: no-op for an ineligible path; otherwise delete the path's old
chunks, then — unless extraction fails or the content's stripped length is
below 10 — chunk with the hard-coded `chunk_size=100, overlap=0.15` and
upsert each sufficiently long chunk.  `extract` stands for
`file_processor.process_file` (it reads the filesystem), `mtime` for
`str(os.path.getmtime(file_path))`, assumed stable across the two reads the
source performs. -/
def watcher_process_file (mimeGuess : String → Option String)
    (hashF : String → Int) (embed : String → List Int)
    (content_types : List String) (extract : String → Option String)
    (mtime : String) (file_path : String) : List WAction :=
  if should_process mimeGuess content_types file_path = false then []
  else
    WAction.deleteByPath file_path ::
      (match extract file_path with
       | none => []
       | some content =>
         if content = "" ∨ (pyStrip content).length < 10 then []
         else
           let chunks := chunk_text content 100 (15/100) none
           chunkUpserts hashF embed file_path mtime chunks.length chunks 0)

/-- Function `_handle_file_event` from `path_watcher.py`: eligible paths are
scheduled for (debounced) reprocessing, others are ignored. -/
def handle_file_event (mimeGuess : String → Option String)
    (content_types : List String) (p : String) : List WAction :=
  if should_process mimeGuess content_types p then [WAction.scheduleReprocess p]
  else []

/-- Function `on_moved` from `path_watcher.py`: for a non-directory move the source
path is routed to `_handle_file_event` and then deleted from the store.
`dest_path` is available on the event (the source comments
`event.dest_path — new name`) but is never read. -/
def on_moved (mimeGuess : String → Option String) (content_types : List String)
    (is_directory : Bool) (src_path dest_path : String) : List WAction :=
  (if !is_directory then handle_file_event mimeGuess content_types src_path
   else [])
  ++ (if !is_directory then [WAction.deleteByPath src_path] else [])

/-- Qdrant upsert of one point: replace the payload under an existing id,
or append a new point. -/
def upsert_point (col : QState) (id : Nat) (pay : QPayload) : QState :=
  if col.any (fun e => e.1 == id) then
    col.map (fun e => if e.1 == id then (id, pay) else e)
  else col ++ [(id, pay)]

/-- Effect of one watcher action on the collection. -/
def apply_action (col : QState) : WAction → QState
  | WAction.deleteByPath p => delete_file_from_qdrant col p
  | WAction.upsert id pay _ => upsert_point col id pay
  | WAction.scheduleReprocess _ => col

def apply_actions (col : QState) (acts : List WAction) : QState :=
  acts.foldl apply_action col

/-- The ids of the points an action list upserts, in order. -/
def upsertIds (acts : List WAction) : List Nat :=
  acts.filterMap (fun a =>
    match a with
    | WAction.upsert id _ _ => some id
    | _ => none)

/-- The payloads an action list upserts, in order. -/
def upsertPayloads (acts : List WAction) : List QPayload :=
  acts.filterMap (fun a =>
    match a with
    | WAction.upsert _ pay _ => some pay
    | _ => none)

def chunkIndexOf : QPayload → Option Nat
  | QPayload.chunk _ i _ _ _ => some i
  | QPayload.meta _ _ _ => none

def totalChunksOf : QPayload → Option Nat
  | QPayload.chunk _ _ t _ _ => some t
  | QPayload.meta _ _ _ => none

/-- The chunk indices the upsert loop keeps (stripped length at least 10),
starting the running index at `i`. -/
def keptIndices : List String → Nat → List Nat
  | [], _ => []
  | c :: rest, i =>
    if (pyStrip c).length < 10 then keptIndices rest (i + 1)
    else i :: keptIndices rest (i + 1)

/-- Claim C3 (code bug): on a non-directory file-moved event the handler
schedules reprocessing of the SOURCE path, not the destination path, and
deletes the source path's chunks.  Here `/root/a.txt` is moved to
`/root/b.txt` (both eligible under the `"text"` category): the emitted
actions reference only the source; nothing is scheduled for the
destination, contradicting the spec and the source's own comment
`event.dest_path — new name`. -/
theorem on_moved_ignores_dest :
    on_moved (fun _ => none) ["text"] false "/root/a.txt" "/root/b.txt"
      = [WAction.scheduleReprocess "/root/a.txt",
         WAction.deleteByPath "/root/a.txt"]
    ∧ WAction.scheduleReprocess "/root/b.txt"
        ∉ on_moved (fun _ => none) ["text"] false "/root/a.txt" "/root/b.txt" := by
  constructor
  · decide
  · decide

/-! Characterisation of the upsert loop. -/

theorem chunkUpserts_eq_enumFrom (hashF : String → Int) (embed : String → List Int)
    (path mtime : String) (total : Nat) :
    ∀ (chunks : List String) (i : Nat),
      chunkUpserts hashF embed path mtime total chunks i
        = ((chunks.enumFrom i).filter
            (fun ic => 10 ≤ (pyStrip ic.2).length)).map
          (fun ic => WAction.upsert (point_id hashF path ic.1 mtime)
            (QPayload.chunk path ic.1 total
              (pyTake CHUNK_CHARACTERS_PREVIEW ic.2) mtime)
            (embed ic.2)) := by
  intro chunks
  induction chunks with
  | nil => intro i; rfl
  | cons c rest ih =>
    intro i
    rw [chunkUpserts, List.enumFrom_cons]
    by_cases hlen : (pyStrip c).length < 10
    · rw [if_pos hlen]
      have hnot : ¬ 10 ≤ (pyStrip c).length := by omega
      simp only [List.filter_cons, hnot, decide_eq_false, Bool.false_eq_true,
        if_false]
      exact ih (i + 1)
    · rw [if_neg hlen]
      have hge : 10 ≤ (pyStrip c).length := by omega
      simp only [List.filter_cons, hge, decide_eq_true_eq, if_true,
        List.map_cons]
      rw [ih (i + 1)]

theorem upsertIds_chunkUpserts (hashF : String → Int) (embed : String → List Int)
    (path mtime : String) (total : Nat) :
    ∀ (chunks : List String) (i : Nat),
      upsertIds (chunkUpserts hashF embed path mtime total chunks i)
        = (keptIndices chunks i).map (fun k => point_id hashF path k mtime) := by
  intro chunks
  induction chunks with
  | nil => intro i; rfl
  | cons c rest ih =>
    intro i
    rw [chunkUpserts, keptIndices]
    by_cases hlen : (pyStrip c).length < 10
    · rw [if_pos hlen, if_pos hlen]
      exact ih (i + 1)
    · rw [if_neg hlen, if_neg hlen]
      have hstep : upsertIds (WAction.upsert (point_id hashF path i mtime)
            (QPayload.chunk path i total (pyTake CHUNK_CHARACTERS_PREVIEW c) mtime)
            (embed c) :: chunkUpserts hashF embed path mtime total rest (i + 1))
          = point_id hashF path i mtime ::
              upsertIds (chunkUpserts hashF embed path mtime total rest (i + 1)) := rfl
      rw [hstep, ih (i + 1), List.map_cons]

theorem chunkIndices_chunkUpserts (hashF : String → Int) (embed : String → List Int)
    (path mtime : String) (total : Nat) :
    ∀ (chunks : List String) (i : Nat),
      (upsertPayloads (chunkUpserts hashF embed path mtime total chunks i)).map
          chunkIndexOf
        = (keptIndices chunks i).map some := by
  intro chunks
  induction chunks with
  | nil => intro i; rfl
  | cons c rest ih =>
    intro i
    rw [chunkUpserts, keptIndices]
    by_cases hlen : (pyStrip c).length < 10
    · rw [if_pos hlen, if_pos hlen]
      exact ih (i + 1)
    · rw [if_neg hlen, if_neg hlen]
      have hstep : upsertPayloads (WAction.upsert (point_id hashF path i mtime)
            (QPayload.chunk path i total (pyTake CHUNK_CHARACTERS_PREVIEW c) mtime)
            (embed c) :: chunkUpserts hashF embed path mtime total rest (i + 1))
          = QPayload.chunk path i total (pyTake CHUNK_CHARACTERS_PREVIEW c) mtime ::
              upsertPayloads (chunkUpserts hashF embed path mtime total rest (i + 1)) := rfl
      rw [hstep, List.map_cons, ih (i + 1), List.map_cons]
      rfl

theorem totalChunks_chunkUpserts (hashF : String → Int) (embed : String → List Int)
    (path mtime : String) (total : Nat) :
    ∀ (chunks : List String) (i : Nat),
      ∀ pay ∈ upsertPayloads (chunkUpserts hashF embed path mtime total chunks i),
        totalChunksOf pay = some total := by
  intro chunks
  induction chunks with
  | nil => intro i pay hpay; simp [chunkUpserts, upsertPayloads] at hpay
  | cons c rest ih =>
    intro i pay hpay
    rw [chunkUpserts] at hpay
    by_cases hlen : (pyStrip c).length < 10
    · rw [if_pos hlen] at hpay
      exact ih (i + 1) pay hpay
    · rw [if_neg hlen] at hpay
      simp only [upsertPayloads, List.filterMap_cons] at hpay
      rcases List.mem_cons.mp hpay with h1 | h2
      · rw [h1]; rfl
      · exact ih (i + 1) pay h2

/-- With the watcher's hard-coded parameters the window step is
`max(1, int(100 * 0.85)) = 85`. -/
theorem pyStep_100_15 : pyStep 100 (15/100) = 85 := by
  have h : (⌊((100 : Nat) : ℚ) * (1 - 15/100)⌋ : ℤ) = 85 := by norm_num
  unfold pyStep
  rw [h]
  rfl

/-- Function `chunk_text` at the watcher's parameters, with the rational step
evaluated away (for concrete computation). -/
theorem chunk_text_100_15 (text : String) :
    chunk_text text 100 (15/100) none
      = (if pySplit text = [] then []
         else chunkLoop (pySplit text) 100 85 none (pySplit text).length 0 0) := by
  unfold chunk_text
  rw [pyStep_100_15]

theorem watcher_process_file_ineligible (mimeGuess : String → Option String)
    (hashF : String → Int) (embed : String → List Int)
    (content_types : List String) (extract : String → Option String)
    (mtime file_path : String)
    (hsp : should_process mimeGuess content_types file_path = false) :
    watcher_process_file mimeGuess hashF embed content_types extract mtime
      file_path = [] := by
  unfold watcher_process_file
  rw [hsp]
  simp

theorem watcher_process_file_eligible (mimeGuess : String → Option String)
    (hashF : String → Int) (embed : String → List Int)
    (content_types : List String) (extract : String → Option String)
    (mtime file_path : String)
    (hsp : should_process mimeGuess content_types file_path = true) :
    watcher_process_file mimeGuess hashF embed content_types extract mtime
        file_path
      = WAction.deleteByPath file_path ::
          (match extract file_path with
           | none => []
           | some content =>
             if content = "" ∨ (pyStrip content).length < 10 then []
             else chunkUpserts hashF embed file_path mtime
               (chunk_text content 100 (15/100) none).length
               (chunk_text content 100 (15/100) none) 0) := by
  unfold watcher_process_file
  rw [hsp]
  simp

/-- Claim C5 (amended): per-file processing of an eligible path always
deletes the path's old chunks first; it upserts nothing when extraction
fails or when the extracted content has fewer than 10 characters after
stripping leading and trailing whitespace (`len(content.strip())`, which
counts interior whitespace — not a count of non-whitespace characters);
otherwise it upserts, individually and in order, exactly the chunks whose
stripped length is at least 10. -/
theorem watcher_process_file_spec (mimeGuess : String → Option String)
    (hashF : String → Int) (embed : String → List Int)
    (content_types : List String) (extract : String → Option String)
    (mtime file_path : String) :
    (should_process mimeGuess content_types file_path = false →
      watcher_process_file mimeGuess hashF embed content_types extract mtime
        file_path = [])
    ∧ (should_process mimeGuess content_types file_path = true →
      (watcher_process_file mimeGuess hashF embed content_types extract mtime
          file_path).head? = some (WAction.deleteByPath file_path)
      ∧ (extract file_path = none →
          watcher_process_file mimeGuess hashF embed content_types extract mtime
            file_path = [WAction.deleteByPath file_path])
      ∧ (∀ content, extract file_path = some content →
          (pyStrip content).length < 10 →
          watcher_process_file mimeGuess hashF embed content_types extract mtime
            file_path = [WAction.deleteByPath file_path])
      ∧ (∀ content, extract file_path = some content →
          10 ≤ (pyStrip content).length →
          (watcher_process_file mimeGuess hashF embed content_types extract mtime
              file_path).tail
            = (((chunk_text content 100 (15/100) none).enum.filter
                (fun ic => 10 ≤ (pyStrip ic.2).length)).map
              (fun ic => WAction.upsert (point_id hashF file_path ic.1 mtime)
                (QPayload.chunk file_path ic.1
                  (chunk_text content 100 (15/100) none).length
                  (pyTake CHUNK_CHARACTERS_PREVIEW ic.2) mtime)
                (embed ic.2))))) := by
  constructor
  · intro hsp
    exact watcher_process_file_ineligible mimeGuess hashF embed content_types
      extract mtime file_path hsp
  · intro hsp
    have he := watcher_process_file_eligible mimeGuess hashF embed content_types
      extract mtime file_path hsp
    refine ⟨by rw [he]; rfl, ?_, ?_, ?_⟩
    · intro hnone
      rw [he, hnone]
    · intro content hcontent hshort
      rw [he, hcontent]
      have : (content = "" ∨ (pyStrip content).length < 10) := Or.inr hshort
      simp only [this, if_true]
    · intro content hcontent hlong
      rw [he, hcontent]
      have hne : ¬ (content = "" ∨ (pyStrip content).length < 10) := by
        rintro (h | h)
        · subst h
          revert hlong
          decide
        · omega
      simp only [hne, if_false, List.tail_cons]
      rw [chunkUpserts_eq_enumFrom]
      rfl

/-- Witness for `watcher_process_file_spec`: a concrete eligible text file
whose processing starts with the delete of its old chunks. -/
theorem watcher_process_file_spec_witness :
    should_process (fun _ => none) ["text"] "/r/a.txt" = true
    ∧ (watcher_process_file (fun _ => none) (fun _ => 0) (fun _ => [])
        ["text"] (fun _ => some "hello world this is a test") "1.0"
        "/r/a.txt").head? = some (WAction.deleteByPath "/r/a.txt") :=
  ⟨by decide,
    ((watcher_process_file_spec (fun _ => none) (fun _ => 0) (fun _ => [])
      ["text"] (fun _ => some "hello world this is a test") "1.0"
      "/r/a.txt").2 (by decide)).1⟩

/-- Counterexample to claim C5 as stated: the extracted content
`"a b c d e f"` has only 6 non-whitespace characters, so per the claim the
file should be left with zero chunks; but `len(content.strip())` is 11
(interior spaces count), so the watcher upserts one chunk. -/
theorem watcher_process_file_nonws_counterexample :
    ((("a b c d e f" : String).toList.filter (fun c => !(isPySpace c))).length = 6)
    ∧ upsertIds (watcher_process_file (fun _ => none) (fun _ => 0) (fun _ => [])
        ["text"] (fun _ => some "a b c d e f") "1.0" "/r/a.txt") = [0] := by
  constructor
  · decide
  · have hc : chunk_text "a b c d e f" 100 (15/100) none = ["a b c d e f"] := by
      rw [chunk_text_100_15]
      decide
    rw [watcher_process_file_eligible (fun _ => none) (fun _ => 0) (fun _ => [])
      ["text"] (fun _ => some "a b c d e f") "1.0" "/r/a.txt" (by decide)]
    simp only [hc]
    decide

/-! Words produced by `pySplit` are nonempty and whitespace-free, and
space-joined windows of them pass the 10-character gate. -/

theorem splitWsAux_words_ok :
    ∀ (l acc : List Char), (∀ c ∈ acc, isPySpace c = false) →
      ∀ w ∈ splitWsAux l acc, w ≠ [] ∧ ∀ c ∈ w, isPySpace c = false := by
  intro l
  induction l with
  | nil =>
    intro acc hacc w hw
    rw [splitWsAux] at hw
    by_cases ha : acc = []
    · rw [if_pos ha] at hw
      simp at hw
    · rw [if_neg ha] at hw
      rcases List.mem_cons.mp hw with h1 | h2
      · subst h1
        refine ⟨by simpa using ha, ?_⟩
        intro c hc
        exact hacc c (List.mem_reverse.mp hc)
      · simp at h2
  | cons c rest ih =>
    intro acc hacc w hw
    rw [splitWsAux] at hw
    by_cases hc : isPySpace c = true
    · rw [if_pos hc] at hw
      by_cases ha : acc = []
      · rw [if_pos ha] at hw
        exact ih [] (by simp) w hw
      · rw [if_neg ha] at hw
        rcases List.mem_cons.mp hw with h1 | h2
        · subst h1
          refine ⟨by simpa using ha, ?_⟩
          intro x hx
          exact hacc x (List.mem_reverse.mp hx)
        · exact ih [] (by simp) w h2
    · rw [if_neg hc] at hw
      refine ih (c :: acc) ?_ w hw
      intro x hx
      rcases List.mem_cons.mp hx with h1 | h2
      · subst h1
        revert hc
        cases isPySpace x <;> simp
      · exact hacc x h2

/-- Every word of `pySplit s` is nonempty and contains no whitespace. -/
theorem pySplit_words_ok (s : String) (w : String) (hw : w ∈ pySplit s) :
    w.toList ≠ [] ∧ ∀ c ∈ w.toList, isPySpace c = false := by
  unfold pySplit at hw
  obtain ⟨l, hl, rfl⟩ := List.mem_map.mp hw
  exact splitWsAux_words_ok s.toList [] (by simp) l hl

theorem joinChars_cons_cons (w r : List Char) (rs : List (List Char)) :
    joinChars (w :: r :: rs) = w ++ ' ' :: joinChars (r :: rs) := rfl

theorem joinChars_length_ge :
    ∀ (ws : List (List Char)), ws ≠ [] → (∀ w ∈ ws, w ≠ []) →
      2 * ws.length - 1 ≤ (joinChars ws).length := by
  intro ws
  induction ws with
  | nil => intro h; exact absurd rfl h
  | cons w rest ih =>
    intro _ hw
    cases rest with
    | nil =>
      have hwne : w ≠ [] := hw w (by simp)
      have : 1 ≤ w.length := by
        cases w
        · exact absurd rfl hwne
        · simp
      simpa [joinChars] using this
    | cons r rs =>
      have hrec := ih (by simp) (fun x hx => hw x (List.mem_cons_of_mem w hx))
      rw [joinChars_cons_cons]
      simp only [List.length_append, List.length_cons]
      have hwne : w ≠ [] := hw w (by simp)
      have h1 : 1 ≤ w.length := by
        cases w
        · exact absurd rfl hwne
        · simp
      simp only [List.length_cons] at hrec ⊢
      omega

theorem joinChars_head?_words (w : List Char) (rest : List (List Char))
    (hw : w ≠ []) : (joinChars (w :: rest)).head? = w.head? := by
  cases rest with
  | nil => rfl
  | cons r rs =>
    rw [joinChars_cons_cons, List.head?_append]
    cases w with
    | nil => exact absurd rfl hw
    | cons a as => rfl

theorem joinChars_ne_nil (ws : List (List Char)) (hne : ws ≠ [])
    (hw : ∀ w ∈ ws, w ≠ []) : joinChars ws ≠ [] := by
  have := joinChars_length_ge ws hne hw
  intro hcontra
  rw [hcontra] at this
  simp at this
  cases ws with
  | nil => exact hne rfl
  | cons w rest => simp at this; omega

theorem joinChars_getLast_nonws :
    ∀ (ws : List (List Char)),
      (∀ w ∈ ws, w ≠ [] ∧ ∀ c ∈ w, isPySpace c = false) →
      ∀ c, (joinChars ws).getLast? = some c → isPySpace c = false := by
  intro ws
  induction ws with
  | nil => intro _ c hc; simp [joinChars] at hc
  | cons w rest ih =>
    intro hws c hc
    cases rest with
    | nil =>
      have hmem : c ∈ w := by
        have hjw : (joinChars [w]) = w := rfl
        rw [hjw] at hc
        exact List.mem_of_getLast?_eq_some hc
      exact (hws w (by simp)).2 c hmem
    | cons r rs =>
      have hjoin_ne : joinChars (r :: rs) ≠ [] := by
        apply joinChars_ne_nil
        · simp
        · intro x hx
          exact (hws x (List.mem_cons_of_mem w hx)).1
      rw [joinChars_cons_cons, List.getLast?_append] at hc
      obtain ⟨d, hd⟩ : ∃ d, (joinChars (r :: rs)).getLast? = some d := by
        cases hjj : (joinChars (r :: rs)).getLast? with
        | none => exact absurd (List.getLast?_eq_none_iff.mp hjj) hjoin_ne
        | some d => exact ⟨d, rfl⟩
      have hcons : (' ' :: joinChars (r :: rs)).getLast? = some d := by
        rcases hj : joinChars (r :: rs) with _ | ⟨y, ys⟩
        · exact absurd hj hjoin_ne
        · rw [List.getLast?_cons_cons]
          rw [hj] at hd
          exact hd
      rw [hcons, Option.or_some] at hc
      have hdc : d = c := by
        simpa using hc
      subst hdc
      exact ih (fun x hx => hws x (List.mem_cons_of_mem w hx)) d hd

theorem dropTrailingWs_eq_self :
    ∀ (l : List Char), (∀ c, l.getLast? = some c → isPySpace c = false) →
      dropTrailingWs l = l := by
  intro l
  induction l with
  | nil => intro _; rfl
  | cons a rest ih =>
    intro h
    cases rest with
    | nil =>
      have ha : isPySpace a = false := h a rfl
      rw [dropTrailingWs]
      have hnil : dropTrailingWs [] = [] := rfl
      rw [hnil, ha]
    | cons x xs =>
      have hrest : dropTrailingWs (x :: xs) = x :: xs := by
        apply ih
        intro c hc
        apply h
        rw [List.getLast?_cons_cons]
        exact hc
      rw [dropTrailingWs, hrest]

theorem pyStripChars_eq_self (l : List Char)
    (hh : ∀ c, l.head? = some c → isPySpace c = false)
    (hl : ∀ c, l.getLast? = some c → isPySpace c = false) :
    pyStripChars l = l := by
  unfold pyStripChars
  have hdw : l.dropWhile isPySpace = l := by
    cases l with
    | nil => rfl
    | cons a rest =>
      rw [List.dropWhile_cons, hh a rfl]
      simp
  rw [hdw]
  exact dropTrailingWs_eq_self l hl

/-- A space-joined window of at least 6 nonempty whitespace-free words
passes the per-chunk gate: its stripped length is at least 10. -/
theorem joinWords_gate (ws : List String)
    (hw : ∀ w ∈ ws, w.toList ≠ [] ∧ ∀ c ∈ w.toList, isPySpace c = false)
    (hlen : 6 ≤ ws.length) :
    10 ≤ (pyStrip (joinWords ws)).length := by
  have hne : ws ≠ [] := by
    intro hcontra
    rw [hcontra] at hlen
    simp at hlen
  have hmap : ∀ w ∈ ws.map String.toList, w ≠ [] ∧ ∀ c ∈ w, isPySpace c = false := by
    intro w hwmem
    obtain ⟨x, hx, rfl⟩ := List.mem_map.mp hwmem
    exact hw x hx
  have hmapne : ws.map String.toList ≠ [] := by
    simpa using hne
  have hstrip : pyStripChars (joinChars (ws.map String.toList))
      = joinChars (ws.map String.toList) := by
    apply pyStripChars_eq_self
    · intro c hc
      cases hws : ws.map String.toList with
      | nil => exact absurd hws hmapne
      | cons w0 rest =>
        have hw0 : w0 ≠ [] := (hmap w0 (by rw [hws]; simp)).1
        rw [hws, joinChars_head?_words w0 rest hw0] at hc
        exact (hmap w0 (by rw [hws]; simp)).2 c (by
          cases w0 with
          | nil => exact absurd rfl hw0
          | cons y ys =>
            simp only [List.head?_cons, Option.some_inj] at hc
            rw [← hc]
            simp)
    · intro c hc
      exact joinChars_getLast_nonws (ws.map String.toList) hmap c hc
  have hlength := joinChars_length_ge (ws.map String.toList) hmapne
    (fun w hwmem => (hmap w hwmem).1)
  rw [List.length_map] at hlength
  show (pyStrip (joinWords ws)).length ≥ 10
  unfold pyStrip joinWords
  show (pyStripChars (joinChars (ws.map String.toList))).length ≥ 10
  rw [hstrip]
  omega

theorem keptIndices_all (chunks : List String)
    (h : ∀ c ∈ chunks, ¬ (pyStrip c).length < 10) :
    ∀ i, keptIndices chunks i = List.range' i chunks.length := by
  induction chunks with
  | nil => intro i; rfl
  | cons c rest ih =>
    intro i
    rw [keptIndices, if_neg (h c (by simp))]
    rw [ih (fun x hx => h x (List.mem_cons_of_mem c hx)) (i + 1)]
    rfl

/-- Claim C4 (amended): the watcher's per-file processing hard-codes
`chunk_size=100, overlap=0.15` (step 85), so an eligible 300-word text
file that passes the near-empty gate is upserted as exactly 4 chunk
records with `chunk_index` increasing `0,1,2,3`, every record carrying
`total_chunks = 4` (not 3 chunks as `chunk_size=150` would give). -/
theorem watcher_300_word_file (mimeGuess : String → Option String)
    (hashF : String → Int) (embed : String → List Int)
    (content_types : List String) (extract : String → Option String)
    (mtime file_path content : String)
    (helig : should_process mimeGuess content_types file_path = true)
    (hext : extract file_path = some content)
    (hwords : (pySplit content).length = 300)
    (hgate : 10 ≤ (pyStrip content).length) :
    (upsertIds (watcher_process_file mimeGuess hashF embed content_types
        extract mtime file_path)).length = 4
    ∧ (upsertPayloads (watcher_process_file mimeGuess hashF embed content_types
        extract mtime file_path)).map chunkIndexOf
      = [some 0, some 1, some 2, some 3]
    ∧ (∀ pay ∈ upsertPayloads (watcher_process_file mimeGuess hashF embed
        content_types extract mtime file_path), totalChunksOf pay = some 4) := by
  have hwne : pySplit content ≠ [] := by
    intro h
    rw [h] at hwords
    simp at hwords
  have hchunks_eq : chunk_text content 100 (15/100) none
      = chunkLoop (pySplit content) 100 85 none (pySplit content).length 0 0 := by
    rw [chunk_text_100_15, if_neg hwne]
  have hlen : (chunk_text content 100 (15/100) none).length = 4 := by
    rw [hchunks_eq, chunkLoop_length (pySplit content) 100 85 (by omega)
      (pySplit content).length 0 0 (by omega), Nat.sub_zero, hwords]
  have hpass : ∀ c ∈ chunk_text content 100 (15/100) none,
      ¬ (pyStrip c).length < 10 := by
    intro c hc
    rw [hchunks_eq] at hc
    obtain ⟨k, hk⟩ := List.mem_iff_getElem?.mp hc
    rw [chunkLoop_getElem? (pySplit content) 100 85 (by omega)
      (pySplit content).length 0 0 k (by omega), Nat.zero_add] at hk
    by_cases hklt : k * 85 < (pySplit content).length
    · rw [if_pos hklt] at hk
      have hceq : c = joinWords (((pySplit content).drop (k * 85)).take 100) := by
        injection hk with h
        exact h.symm
      have hkle : k ≤ 3 := by
        rw [hwords] at hklt
        omega
      have hwinlen : 6 ≤ (((pySplit content).drop (k * 85)).take 100).length := by
        rw [List.length_take, List.length_drop, hwords]
        omega
      have hwin_ok : ∀ w ∈ ((pySplit content).drop (k * 85)).take 100,
          w.toList ≠ [] ∧ ∀ ch ∈ w.toList, isPySpace ch = false := by
        intro w hw
        exact pySplit_words_ok content w
          (List.mem_of_mem_drop (List.mem_of_mem_take hw))
      have := joinWords_gate _ hwin_ok hwinlen
      rw [← hceq] at this
      omega
    · rw [if_neg hklt] at hk
      simp at hk
  have hkept : keptIndices (chunk_text content 100 (15/100) none) 0
      = [0, 1, 2, 3] := by
    rw [keptIndices_all _ hpass 0, hlen]
    rfl
  have hacts := watcher_process_file_eligible mimeGuess hashF embed content_types
    extract mtime file_path helig
  rw [hext] at hacts
  have hcond : ¬ (content = "" ∨ (pyStrip content).length < 10) := by
    rintro (h | h)
    · subst h
      have : pySplit "" = [] := rfl
      rw [this] at hwords
      simp at hwords
    · omega
  simp only [hcond, if_false] at hacts
  refine ⟨?_, ?_, ?_⟩
  · rw [hacts]
    have hdel : upsertIds (WAction.deleteByPath file_path ::
        chunkUpserts hashF embed file_path mtime
          (chunk_text content 100 (15/100) none).length
          (chunk_text content 100 (15/100) none) 0)
        = upsertIds (chunkUpserts hashF embed file_path mtime
          (chunk_text content 100 (15/100) none).length
          (chunk_text content 100 (15/100) none) 0) := rfl
    rw [hdel, upsertIds_chunkUpserts, hkept]
    rfl
  · rw [hacts]
    have hdel : upsertPayloads (WAction.deleteByPath file_path ::
        chunkUpserts hashF embed file_path mtime
          (chunk_text content 100 (15/100) none).length
          (chunk_text content 100 (15/100) none) 0)
        = upsertPayloads (chunkUpserts hashF embed file_path mtime
          (chunk_text content 100 (15/100) none).length
          (chunk_text content 100 (15/100) none) 0) := rfl
    rw [hdel, chunkIndices_chunkUpserts, hkept]
    rfl
  · intro pay hpay
    rw [hacts] at hpay
    have hdel : upsertPayloads (WAction.deleteByPath file_path ::
        chunkUpserts hashF embed file_path mtime
          (chunk_text content 100 (15/100) none).length
          (chunk_text content 100 (15/100) none) 0)
        = upsertPayloads (chunkUpserts hashF embed file_path mtime
          (chunk_text content 100 (15/100) none).length
          (chunk_text content 100 (15/100) none) 0) := rfl
    rw [hdel] at hpay
    have htot := totalChunks_chunkUpserts hashF embed file_path mtime
      (chunk_text content 100 (15/100) none).length
      (chunk_text content 100 (15/100) none) 0 pay hpay
    rw [hlen] at htot
    exact htot

/-- A concrete 300-word text: 300 copies of `w` joined by single spaces. -/
def w300 : String := joinWords (List.replicate 300 "w")

set_option maxRecDepth 200000 in
/-- Witness for `watcher_300_word_file` at the concrete 300-word file. -/
theorem watcher_300_word_file_witness :
    should_process (fun _ => none) ["text"] "/r/a.txt" = true
    ∧ (pySplit w300).length = 300
    ∧ 10 ≤ (pyStrip w300).length
    ∧ (upsertIds (watcher_process_file (fun _ => none) (fun _ => 0)
        (fun _ => []) ["text"] (fun _ => some w300) "1.0" "/r/a.txt")).length
      = 4 :=
  ⟨by decide, by decide, by decide,
    (watcher_300_word_file (fun _ => none) (fun _ => 0) (fun _ => [])
      ["text"] (fun _ => some w300) "1.0" "/r/a.txt" w300
      (by decide) rfl (by decide) (by decide)).1⟩

set_option maxRecDepth 1000000 in
/-- Counterexample to claim C4 as stated: indexing the concrete 300-word
text file through the watcher's per-file processing upserts 4 chunk
records, not 3 — the watcher ignores `CHUNK_SIZE_WORDS = 150` and passes
the literal `chunk_size=100`. -/
theorem watcher_300_word_file_counterexample :
    (pySplit w300).length = 300
    ∧ (upsertIds (watcher_process_file (fun _ => none) (fun _ => 0)
        (fun _ => []) ["text"] (fun _ => some w300) "1.0" "/r/a.txt")).length
      = 4 := by
  constructor
  · decide
  · rw [watcher_process_file_eligible (fun _ => none) (fun _ => 0)
      (fun _ => []) ["text"] (fun _ => some w300) "1.0" "/r/a.txt" (by decide)]
    simp only [chunk_text_100_15]
    decide

/-- Claim C8: the ids upserted by per-file processing are a deterministic
function of the path, the extracted content, the modification time and the
process's string hash: two runs with the same path, unchanged content and
unchanged modification time produce exactly the same list of chunk point
ids, each id being `abs(hash(path + str(chunk_index) + str(mtime)))`. -/
theorem watcher_process_file_stable_ids (mimeGuess : String → Option String)
    (hashF : String → Int) (embed : String → List Int)
    (content_types : List String) (e1 e2 : String → Option String)
    (mtime file_path : String)
    (hsame : e1 file_path = e2 file_path) :
    upsertIds (watcher_process_file mimeGuess hashF embed content_types e1
        mtime file_path)
      = upsertIds (watcher_process_file mimeGuess hashF embed content_types e2
        mtime file_path)
    ∧ (∀ content, e1 file_path = some content →
        should_process mimeGuess content_types file_path = true →
        ¬ (content = "" ∨ (pyStrip content).length < 10) →
        upsertIds (watcher_process_file mimeGuess hashF embed content_types e1
            mtime file_path)
          = (keptIndices (chunk_text content 100 (15/100) none) 0).map
            (fun k => (hashF (file_path ++ toString k ++ mtime)).natAbs)) := by
  constructor
  · have heq : watcher_process_file mimeGuess hashF embed content_types e1
        mtime file_path
        = watcher_process_file mimeGuess hashF embed content_types e2
          mtime file_path := by
      unfold watcher_process_file
      rw [hsame]
    rw [heq]
  · intro content hcontent hsp hcond
    rw [watcher_process_file_eligible mimeGuess hashF embed content_types e1
      mtime file_path hsp, hcontent]
    simp only [hcond, if_false]
    have hdel : upsertIds (WAction.deleteByPath file_path ::
        chunkUpserts hashF embed file_path mtime
          (chunk_text content 100 (15/100) none).length
          (chunk_text content 100 (15/100) none) 0)
        = upsertIds (chunkUpserts hashF embed file_path mtime
          (chunk_text content 100 (15/100) none).length
          (chunk_text content 100 (15/100) none) 0) := rfl
    rw [hdel, upsertIds_chunkUpserts]
    rfl

/-- Witness for `watcher_process_file_stable_ids`: two different extraction
oracles agreeing on the file yield identical upserted id lists. -/
theorem watcher_process_file_stable_ids_witness :
    ((fun _ => some "hello world this is a test") : String → Option String)
        "/r/a.txt"
      = ((fun p => if p = "/r/a.txt" then some "hello world this is a test"
          else none) : String → Option String) "/r/a.txt"
    ∧ upsertIds (watcher_process_file (fun _ => none) (fun _ => 0)
        (fun _ => []) ["text"]
        (fun _ => some "hello world this is a test") "1.0" "/r/a.txt")
      = upsertIds (watcher_process_file (fun _ => none) (fun _ => 0)
        (fun _ => []) ["text"]
        (fun p => if p = "/r/a.txt" then some "hello world this is a test"
          else none) "1.0" "/r/a.txt") :=
  ⟨by decide,
    (watcher_process_file_stable_ids (fun _ => none) (fun _ => 0)
      (fun _ => []) ["text"]
      (fun _ => some "hello world this is a test")
      (fun p => if p = "/r/a.txt" then some "hello world this is a test"
        else none) "1.0" "/r/a.txt" (by decide)).1⟩

/-- A collection holding 1001 chunk records, all for the same file. -/
def manyChunks : QState :=
  (List.range 1001).map (fun i => (i, QPayload.chunk "/r/a.txt" i 1001 "" "1.0"))

set_option maxRecDepth 400000 in
/-- Claim C6 (code bug): `_delete_file_from_qdrant` scrolls with
`limit=1000` and never paginates, so on a collection holding 1001 chunks
of the deleted file the file-deleted handler removes only the first 1000
matching points and leaves one chunk with the deleted path in the store —
contradicting the claim and the source's own docstring
(`Deletes all file chunks from collection`). -/
theorem on_deleted_leaves_chunk_behind :
    on_deleted false "/r/a.txt" manyChunks
      = [(1000, QPayload.chunk "/r/a.txt" 1000 1001 "" "1.0")]
    ∧ payloadMatchesPath "/r/a.txt" (QPayload.chunk "/r/a.txt" 1000 1001 "" "1.0")
      = true := by
  refine ⟨?_, by decide⟩
  show delete_file_from_qdrant manyChunks "/r/a.txt" = _
  unfold delete_file_from_qdrant deleteByIds scrollByPath
  have hfilter : manyChunks.filter (fun e => payloadMatchesPath "/r/a.txt" e.2)
      = manyChunks := by
    apply List.filter_eq_self.mpr
    intro e he
    obtain ⟨i, _, rfl⟩ := List.mem_map.mp he
    exact beq_self_eq_true _
  rw [hfilter]
  have htake : manyChunks.take 1000
      = (List.range 1000).map
          (fun i => ((i : Nat), QPayload.chunk "/r/a.txt" i 1001 "" "1.0")) := by
    unfold manyChunks
    rw [← List.map_take, List.take_range]
    norm_num
  have hids : (manyChunks.take 1000).map Prod.fst = List.range 1000 := by
    rw [htake, List.map_map]
    have hcomp : (Prod.fst ∘ fun i =>
        ((i : Nat), QPayload.chunk "/r/a.txt" i 1001 "" "1.0")) = id := rfl
    rw [hcomp, List.map_id]
  rw [hids]
  show manyChunks.filter (fun e => !(List.range 1000).contains e.1) = _
  unfold manyChunks
  have hr : List.range 1001 = List.range 1000 ++ [1000] := by
    show List.range (1000 + 1) = _
    rw [List.range_succ]
  rw [hr, List.map_append, List.filter_append]
  have h1 : ((List.range 1000).map
        (fun i => ((i : Nat), QPayload.chunk "/r/a.txt" i 1001 "" "1.0"))).filter
        (fun e => !(List.range 1000).contains e.1) = [] := by
    apply List.filter_eq_nil_iff.mpr
    intro e he
    obtain ⟨i, hi, rfl⟩ := List.mem_map.mp he
    have hcontains : (List.range 1000).contains i = true := List.elem_iff.mpr hi
    have hlt : i < 1000 := List.mem_range.mp hi
    simp [hcontains, hlt]
  rw [h1]
  simp only [List.map_cons, List.map_nil, List.filter_cons, List.nil_append]
  have hnotin : (List.range 1000).contains 1000 = false := by decide
  rw [hnotin]
  rfl

/-! Watcher progress state (`path_watcher.py` lines 37-59, 89-116;
`path_manager.py` lines 70-77). -/

inductive WStatus where
  | idle | scanning | watching | stopped
deriving DecidableEq

inductive CountMode where
  | files | chunks
deriving DecidableEq

/-- The mutable progress fields of `RAGFileWatcher`.  `remaining` is the
ghost length of the unprocessed tail of the scan batch: the `for` loop of
`_initial_scan` performs exactly one `processed_files += 1` per batch
element, so the loop body can fire only while `remaining > 0`. -/
structure WatcherProgress where
  status : WStatus
  mode : CountMode
  total_files : Nat
  processed_files : Nat
  progress_percent : Nat
  remaining : Nat
deriving DecidableEq

/-- The constructor state of `RAGFileWatcher.__init__`. -/
def initWatcher : WatcherProgress :=
  ⟨WStatus.idle, CountMode.files, 0, 0, 0, 0⟩

/-- One operation on the progress state:
`startScan` is `start()` with `skip_initial_scan=False` (sets scanning,
file counting, `processed_files = 0`; no batch yet);
`startRestore c` is `start()` with `skip_initial_scan=True` where `c` is
the stored chunk count `_count_existing_points()` (sets
`total_files = processed_files = c`, 100%);
`scanSetTotal n` is `_initial_scan` fixing the batch of `n` eligible
files (`total_files = n`, `processed_files = 0`);
`scanStep` is one loop iteration (`processed_files += 1`);
`scanFinish` ends the scan (`status = watching`);
`stop` is `stop()`;
`statusRead` is `get_status()`, which recomputes
`progress_percent = int(processed / max(total, 1) * 100)` and changes
nothing else. -/
inductive WStep : WatcherProgress → WatcherProgress → Prop where
  | startScan (s : WatcherProgress) :
      WStep s ⟨WStatus.scanning, CountMode.files, s.total_files, 0,
        s.progress_percent, 0⟩
  | startRestore (s : WatcherProgress) (c : Nat) :
      WStep s ⟨WStatus.watching, CountMode.chunks, c, c, 100, 0⟩
  | scanSetTotal (s : WatcherProgress) (n : Nat) :
      WStep s ⟨s.status, s.mode, n, 0, s.progress_percent, n⟩
  | scanStep (s : WatcherProgress) :
      0 < s.remaining →
      WStep s ⟨s.status, s.mode, s.total_files, s.processed_files + 1,
        s.progress_percent, s.remaining - 1⟩
  | scanFinish (s : WatcherProgress) :
      WStep s ⟨WStatus.watching, s.mode, s.total_files, s.processed_files,
        s.progress_percent, s.remaining⟩
  | stop (s : WatcherProgress) :
      WStep s ⟨WStatus.stopped, s.mode, s.total_files, s.processed_files,
        s.progress_percent, s.remaining⟩
  | statusRead (s : WatcherProgress) :
      WStep s ⟨s.status, s.mode, s.total_files, s.processed_files,
        s.processed_files * 100 / max s.total_files 1, s.remaining⟩

/-- The states reachable from the constructor state by any sequence of
operations. -/
inductive WReachable : WatcherProgress → Prop where
  | init : WReachable initWatcher
  | step {s t : WatcherProgress} : WReachable s → WStep s t → WReachable t

theorem wreachable_aux {s : WatcherProgress} (h : WReachable s) :
    s.processed_files + s.remaining ≤ s.total_files := by
  induction h with
  | init => simp [initWatcher]
  | step _ hstep ih =>
    cases hstep with
    | startScan => simpa using Nat.zero_le _
    | startRestore c => simp
    | scanSetTotal n => simp
    | scanStep hr =>
      simp only at ih ⊢
      omega
    | scanFinish => exact ih
    | stop => exact ih
    | statusRead => exact ih

/-- Claim C9: in every state reachable by any sequence of watcher
operations — scan-mode start, the steps of the initial scan, restore-mode
start (which sets both counters to the stored chunk count), stop and
status reads — `processed_files ≤ total_files`. -/
theorem watcher_progress_invariant (s : WatcherProgress) (h : WReachable s) :
    s.processed_files ≤ s.total_files := by
  have := wreachable_aux h
  omega

/-- Witness for `watcher_progress_invariant`: a state reached by a scan
start, a batch of 2 files, one processed step and a status read. -/
theorem watcher_progress_invariant_witness :
    ∃ s : WatcherProgress, WReachable s ∧ s.processed_files = 1
      ∧ s.total_files = 2 ∧ s.processed_files ≤ s.total_files := by
  refine ⟨⟨WStatus.scanning, CountMode.files, 2, 1, 0, 1⟩, ?_, rfl, rfl, ?_⟩
  · have h0 : WReachable initWatcher := WReachable.init
    have h1 : WReachable ⟨WStatus.scanning, CountMode.files, 0, 0, 0, 0⟩ :=
      WReachable.step h0 (WStep.startScan initWatcher)
    have h2 : WReachable ⟨WStatus.scanning, CountMode.files, 2, 0, 0, 2⟩ :=
      WReachable.step h1 (WStep.scanSetTotal _ 2)
    exact WReachable.step h2 (WStep.scanStep _ (by decide))
  · exact watcher_progress_invariant _ (by
      have h0 : WReachable initWatcher := WReachable.init
      have h1 : WReachable ⟨WStatus.scanning, CountMode.files, 0, 0, 0, 0⟩ :=
        WReachable.step h0 (WStep.startScan initWatcher)
      have h2 : WReachable ⟨WStatus.scanning, CountMode.files, 2, 0, 0, 2⟩ :=
        WReachable.step h1 (WStep.scanSetTotal _ 2)
      exact WReachable.step h2 (WStep.scanStep _ (by decide)))

end QuadRag
